import Mathlib

set_option linter.unusedSectionVars false

/-!
Verification of the goset repository: a generic set-algebra container
(`Set[T]` over a `SimpleSetStore[T]`) plus a mutex-guarded wrapper
(`SafeSet[T]`).  Membership content of a store (a Go `map[T]struct{}`)
is embedded as a `Finset`; mutating methods are embedded as state-passing
functions; the lock behaviour of the concurrent wrapper is embedded as the
sequence of lock events each method emits.
-/

namespace Goset

variable {α : Type} [DecidableEq α]

/-- `SimpleSetStore.Add` (store.go): for each item, `s.store[item] = struct{}{}`. -/
def add (s : Finset α) (items : List α) : Finset α :=
  items.foldl (fun acc x => insert x acc) s

/-- `NewSet(items...)` / `FromSlice` (goset.go): a fresh empty store, then `Add`. -/
def fromSlice (l : List α) : Finset α :=
  add ∅ l

/-- `Set.Copy` (goset.go): a new empty set, then every item of `s` is added
one by one (`Finset.image id` is exactly insertion of every item into a fresh
set). -/
def copy (s : Finset α) : Finset α :=
  s.image id

/-- `Set.Update` (goset.go): for each other set in turn, every one of its items
is added into the receiver; since map iteration order cannot affect a set of
inserted keys, adding all items of `o` into `acc` is `acc ∪ o`. -/
def update (s : Finset α) (others : List (Finset α)) : Finset α :=
  others.foldl (fun acc o => acc ∪ o) s

/-- `Set.Union` (goset.go): `unionSet := s.Copy(); unionSet.Update(others...)`. -/
def union (s : Finset α) (others : List (Finset α)) : Finset α :=
  update (copy s) others

/-- `Set.Intersection` (goset.go): iterate the receiver and add into a fresh
set every item contained in all the other sets (the `inAllOthers` loop with
early break is the boolean `all`); inserting each passing item of `s` into a
fresh set is `Finset.filter`. -/
def intersection (s : Finset α) (others : List (Finset α)) : Finset α :=
  s.filter (fun x => others.all (fun o => decide (x ∈ o)) = true)

/-- `Set.Difference` (goset.go): iterate the receiver and add into a fresh set
every item contained in none of the other sets (the `inAnyOther` loop with
early break is the boolean `any`). -/
def difference (s : Finset α) (others : List (Finset α)) : Finset α :=
  s.filter (fun x => others.any (fun o => decide (x ∈ o)) = false)

/-- `Set.SymmetricDifference` (goset.go): one pass adds into a fresh set the
receiver's items absent from the other, a second pass adds the other's items
absent from the receiver; the fresh set ends up holding the union of the two
filters. -/
def symmetricDifference (s other : Finset α) : Finset α :=
  s.filter (fun x => decide (x ∈ other) = false) ∪
    other.filter (fun x => decide (x ∈ s) = false)

/-- `Set.Equal` (goset.go): sizes must match, then every item of the receiver
is checked for containment in the other (`ForWithBreak` stops at the first
missing item; the result is the bounded-forall). -/
def setEqual (s other : Finset α) : Bool :=
  s.card == other.card && decide (∀ x ∈ s, x ∈ other)

/-- `Set.IsDisjoint` (goset.go): `s.Intersection(other).IsEmpty()`, where
`IsEmpty` is `len(store) == 0`. -/
def isDisjoint (s other : Finset α) : Bool :=
  (intersection s [other]).card == 0

/-- `Set.IsSubset` (goset.go): `s.Intersection(other).Len() == s.Len()`. -/
def isSubset (s other : Finset α) : Bool :=
  (intersection s [other]).card == s.card

/-- `Set.IsSuperset` (goset.go): `other.IsSubset(s)`. -/
def isSuperset (s other : Finset α) : Bool :=
  isSubset other s

/-- The two recoverable error kinds of the store layer (store.go):
`errors.New("set is empty")` from `Pop` and `fmt.Errorf("item not found: %v")`
from `Remove`. -/
inductive StoreError where
  | emptySet
  | itemNotFound
deriving DecidableEq, Repr

/-- `SimpleSetStore.Remove` (store.go): if the item is present it is deleted and
the error is nil; otherwise the store is untouched and an item-not-found error
is returned.  The pair is (store after the call, returned error). -/
def removeStore (s : Finset α) (item : α) : Finset α × Option StoreError :=
  if item ∈ s then (s.erase item, none) else (s, some StoreError.itemNotFound)

/-- `SimpleSetStore.Discard` (store.go): every listed item is deleted if
present.  The Go method has no error return at all; that total signature is
embedded as an error component that is `none` on every input. -/
def discardStore (s : Finset α) (items : List α) : Finset α × Option StoreError :=
  (items.foldl (fun acc x => acc.erase x) s, none)

/-- `SimpleSetStore.Pop` (store.go): if the store is empty, the zero value and
an empty-set error are returned and the store is untouched; otherwise the
first item yielded by the map iteration — an arbitrary element, embedded as
the parameter `pick` — is discarded and returned.  The triple is (store
after, popped item, error). -/
def pop (s : Finset α) (pick : α) : Finset α × Option α × Option StoreError :=
  if s.card = 0 then (s, none, some StoreError.emptySet)
  else ((discardStore s [pick]).1, some pick, none)

/-- Outcome of the external `encoding/json` decoder (`json.Unmarshal` into
`[]T`): either a decode error or the decoded item sequence. -/
inductive DecodeError where
  | malformed
deriving DecidableEq, Repr

/-- `SimpleSetStore.MarshalJSON` (store.go) is `json.Marshal(s.Items())`:
`Items` returns a slice listing every item of the store exactly once in
unspecified map-iteration order, and the external byte codec is faithful on
item sequences.  A marshalled store is therefore embedded as any duplicate-free
enumeration `e` of the store's membership. -/
def marshalsTo (s : Finset α) (e : List α) : Prop :=
  e.Nodup ∧ e.toFinset = s

/-- `SimpleSetStore.UnmarshalJSON` (store.go): `json.Unmarshal` is external, so
the function takes its outcome; on a decode error that error is returned and
the store is untouched, otherwise the decoded items are added (merged) into the
existing store.  (`Set.UnmarshalJSON` in goset.go first replaces a nil store by
a fresh empty one, which is the `s = ∅` instance.)  The pair is (store after,
returned error). -/
def unmarshalJSON (s : Finset α) (decoded : Except DecodeError (List α)) :
    Finset α × Option DecodeError :=
  match decoded with
  | Except.error e => (s, some e)
  | Except.ok items => (add s items, none)

/-! ### Heap model

Go sets are pointers to mutable stores; to state frame properties (which cells
an operation writes, and that results are newly allocated) a heap maps
addresses (indices) to membership contents. -/

/-- A heap of set stores: address `i` holds the `i`-th membership content. -/
abbrev Heap (α : Type) : Type := List (Finset α)

/-- Read the store at an address (out-of-range reads the empty content;
well-formed programs never do). -/
def hget : Heap α → Nat → Finset α
  | [], _ => ∅
  | v :: _, 0 => v
  | _ :: t, n + 1 => hget t n

/-- Overwrite the store at an address. -/
def hset : Heap α → Nat → Finset α → Heap α
  | [], _, _ => []
  | _ :: t, 0, v => v :: t
  | w :: t, n + 1, v => w :: hset t n v

/-- Allocate a fresh store (as `NewSet` does) and return its address. -/
def halloc (h : Heap α) (v : Finset α) : Heap α × Nat :=
  (h ++ [v], h.length)

/-- Heap version of `Set.Copy`: allocate a new set holding a copy of `s`. -/
def copyH (h : Heap α) (s : Nat) : Heap α × Nat :=
  halloc h (copy (hget h s))

/-- Heap version of `Set.Update`: for each other address in turn, add its items
into the receiver's cell (the only cell written). -/
def updateH (h : Heap α) (s : Nat) (others : List Nat) : Heap α :=
  others.foldl (fun hh o => hset hh s (hget hh s ∪ hget hh o)) h

/-- Heap version of `Set.Union`: copy the receiver into a fresh cell, then
update that fresh cell from the others. -/
def unionH (h : Heap α) (s : Nat) (others : List Nat) : Heap α × Nat :=
  (updateH (copyH h s).1 (copyH h s).2 others, (copyH h s).2)

/-- Heap version of `Set.Intersection`: allocate a fresh cell, then iterate
the receiver's items, adding into the fresh cell (the only cell written) every
item contained in all the others; the fresh cell ends up holding the
`intersection` of the cells read. -/
def intersectionH (h : Heap α) (s : Nat) (others : List Nat) : Heap α × Nat :=
  let h0 := (halloc h (∅ : Finset α)).1
  let r := (halloc h (∅ : Finset α)).2
  (hset h0 r (intersection (hget h0 s) (others.map (fun o => hget h0 o))), r)

/-- Heap version of `Set.Difference`: allocate a fresh cell, then iterate the
receiver's items, adding into the fresh cell (the only cell written) every
item contained in none of the others. -/
def differenceH (h : Heap α) (s : Nat) (others : List Nat) : Heap α × Nat :=
  let h0 := (halloc h (∅ : Finset α)).1
  let r := (halloc h (∅ : Finset α)).2
  (hset h0 r (difference (hget h0 s) (others.map (fun o => hget h0 o))), r)

/-- Heap version of `Set.SymmetricDifference`: allocate a fresh cell; the two
passes add into the fresh cell (the only cell written) the receiver's items
absent from the other and the other's items absent from the receiver. -/
def symmetricDifferenceH (h : Heap α) (s o : Nat) : Heap α × Nat :=
  let h0 := (halloc h (∅ : Finset α)).1
  let r := (halloc h (∅ : Finset α)).2
  (hset h0 r (symmetricDifference (hget h0 s) (hget h0 o)), r)

/-! ### Lock-trace model of the concurrent wrapper

Each `SafeSet` method is embedded as the sequence of events the calling thread
performs, in program order (goset_safe.go): acquiring and releasing an
instance's mutex, taking a detached copy of an operand's membership
(`other.GetSet().Copy()`), taking a direct reference to an operand's live
`Set` (`other.GetSet()` without a copy), and the pure computation delegated to
the sequential layer.  Instance `0` is the receiver; operands are `1..n`;
result or operand instances touched by data-dependent single-lock calls are
arbitrary indices. -/

/-- A single lock-protocol event of a `SafeSet` method. -/
inductive Ev where
  | lock (i : Nat)
  | unlock (i : Nat)
  | copyOf (i : Nat)
  | refOf (i : Nat)
  | compute
deriving DecidableEq, Repr

/-- Whether an event is a mutex release. -/
def isUnlock : Ev → Bool
  | Ev.unlock _ => true
  | _ => false

/-- Whether an event takes a live reference to an operand's inner `Set`. -/
def isRefOf : Ev → Bool
  | Ev.refOf _ => true
  | _ => false

/-- `n` consecutive lock acquisitions on instances `i, i+1, ...`
(`mapFunc` over `others` in `SafeSet.Update`, each closure doing
`other.Lock()`). -/
def lockEach (i n : Nat) : List Ev :=
  match n with
  | 0 => []
  | k + 1 => Ev.lock i :: lockEach (i + 1) k

/-- `n` consecutive lock releases on instances `i, i+1, ...`
(`unlockOthers` via `iterFunc`). -/
def unlockEach (i n : Nat) : List Ev :=
  match n with
  | 0 => []
  | k + 1 => Ev.unlock i :: unlockEach (i + 1) k

/-- Per-operand snapshot collection of `SafeSet.Union`: for each operand in
turn, `other.Lock(); set := other.GetSet().Copy(); other.Unlock()`. -/
def collectCopy (i n : Nat) : List Ev :=
  match n with
  | 0 => []
  | k + 1 => Ev.lock i :: Ev.copyOf i :: Ev.unlock i :: collectCopy (i + 1) k

/-- Per-operand reference collection of `SafeSet.Difference`: for each operand
in turn, `other.Lock(); set := other.GetSet(); other.Unlock()` — no copy. -/
def collectRef (i n : Nat) : List Ev :=
  match n with
  | 0 => []
  | k + 1 => Ev.lock i :: Ev.refOf i :: Ev.unlock i :: collectRef (i + 1) k

/-- A sequence of independent single-lock calls (`Items`, `Contains`, `Add`,
`Len`): each locks exactly one instance for its own duration. -/
def singleLockCalls : List Nat → List Ev
  | [] => []
  | i :: is => Ev.lock i :: Ev.unlock i :: singleLockCalls is

/-- Trace of `SafeSet.Update` with `n` operands: `s.Lock()`, then every
operand is locked in turn with nothing released; the merge runs; the deferred
`unlockOthers` then `s.Unlock()` run on return. -/
def safeUpdateTrace (n : Nat) : List Ev :=
  Ev.lock 0 :: (lockEach 1 n ++ Ev.compute :: (unlockEach 1 n ++ [Ev.unlock 0]))

/-- Trace of `SafeSet.Union` with `n` operands: per-operand lock/copy/unlock,
then the receiver is locked alone for the combine. -/
def safeUnionTrace (n : Nat) : List Ev :=
  collectCopy 1 n ++ [Ev.lock 0, Ev.compute, Ev.unlock 0]

/-- Trace of `SafeSet.Difference` with `n` operands: per-operand
lock/reference/unlock (no copy), then the receiver is locked alone for the
combine. -/
def safeDifferenceTrace (n : Nat) : List Ev :=
  collectRef 1 n ++ [Ev.lock 0, Ev.compute, Ev.unlock 0]

/-- Trace of `SafeSet.SymmetricDifference`: the single operand is locked,
a reference taken, unlocked; then the receiver is locked alone. -/
def safeSymmetricDifferenceTrace : List Ev :=
  [Ev.lock 1, Ev.refOf 1, Ev.unlock 1, Ev.lock 0, Ev.compute, Ev.unlock 0]

/-- Trace of `SafeSet.Equal`: the operand is locked, a reference taken,
unlocked; then the receiver is locked alone for the comparison. -/
def safeEqualTrace : List Ev :=
  [Ev.lock 1, Ev.refOf 1, Ev.unlock 1, Ev.lock 0, Ev.compute, Ev.unlock 0]

/-- Trace of `SafeSet.Intersection`: `s.Items()` locks the receiver alone,
then the loop issues data-dependent single-lock `Contains`/`Add` calls
(`calls` is the arbitrary sequence of instances so touched). -/
def safeIntersectionTrace (calls : List Nat) : List Ev :=
  Ev.lock 0 :: Ev.unlock 0 :: singleLockCalls calls

/-- Trace of `SafeSet.IsDisjoint`: `Intersection`, then `IsEmpty` (a `Len`)
locks the fresh result `r` alone. -/
def safeIsDisjointTrace (calls : List Nat) (r : Nat) : List Ev :=
  safeIntersectionTrace calls ++ [Ev.lock r, Ev.unlock r]

/-- Trace of `SafeSet.IsSubset`: `Intersection`, then `Len` on the fresh
result `r` and `Len` on the receiver, each a single-lock call. -/
def safeIsSubsetTrace (calls : List Nat) (r : Nat) : List Ev :=
  safeIntersectionTrace calls ++ [Ev.lock r, Ev.unlock r, Ev.lock 0, Ev.unlock 0]

/-- Trace of `SafeSet.IsSuperset`: delegates to `other.IsSubset(s)`, the same
trace shape with the roles of the two instances swapped. -/
def safeIsSupersetTrace (calls : List Nat) (r : Nat) : List Ev :=
  safeIsSubsetTrace calls r

/-- `locksBounded b cur es` checks that, starting from `cur` held locks, the
number of simultaneously held locks never exceeds `b` along `es`. -/
def locksBounded (bound : Nat) : Nat → List Ev → Bool
  | _, [] => true
  | cur, Ev.lock _ :: es => decide (cur + 1 ≤ bound) && locksBounded bound (cur + 1) es
  | cur, Ev.unlock _ :: es => locksBounded bound (cur - 1) es
  | cur, _ :: es => locksBounded bound cur es

/-- Number of locks held after a trace, starting from `cur` held. -/
def countHeldFrom (cur : Nat) : List Ev → Nat
  | [] => cur
  | Ev.lock _ :: es => countHeldFrom (cur + 1) es
  | Ev.unlock _ :: es => countHeldFrom (cur - 1) es
  | _ :: es => countHeldFrom cur es

/-- Number of locks held after a trace. -/
def countHeld (es : List Ev) : Nat :=
  countHeldFrom 0 es

/-- The portion of a trace before its (first) pure-computation step. -/
def preCompute : List Ev → List Ev
  | [] => []
  | Ev.compute :: _ => []
  | e :: es => e :: preCompute es

/-- The collect-then-combine discipline the spec ascribes to union, difference
and symmetric difference: the method never takes a live reference to an
operand's storage, only detached snapshots. -/
def usesOnlySnapshots (tr : List Ev) : Bool :=
  tr.all (fun e => !isRefOf e)

/-! ### Lemmas about the sequential layer -/

lemma foldl_insert_mem (l : List α) (s : Finset α) (x : α) :
    x ∈ l.foldl (fun acc y => insert y acc) s ↔ x ∈ s ∨ x ∈ l := by
  induction l generalizing s with
  | nil => simp
  | cons y ys ih => simp [List.foldl_cons, ih, Finset.mem_insert]; tauto

lemma mem_add {s : Finset α} {items : List α} {x : α} :
    x ∈ add s items ↔ x ∈ s ∨ x ∈ items := by
  simp [add, foldl_insert_mem]

lemma add_eq (s : Finset α) (items : List α) : add s items = s ∪ items.toFinset := by
  ext x
  simp [mem_add]

lemma copy_eq (s : Finset α) : copy s = s := by
  simp [copy]

lemma fromSlice_eq (l : List α) : fromSlice l = l.toFinset := by
  simp [fromSlice, add_eq]

lemma mem_update {s : Finset α} {others : List (Finset α)} {x : α} :
    x ∈ update s others ↔ x ∈ s ∨ ∃ o ∈ others, x ∈ o := by
  induction others generalizing s with
  | nil => simp [update]
  | cons o os ih =>
    simp only [update, List.foldl_cons] at *
    rw [ih]
    simp [Finset.mem_union]
    tauto

lemma mem_intersection {s : Finset α} {others : List (Finset α)} {x : α} :
    x ∈ intersection s others ↔ x ∈ s ∧ ∀ o ∈ others, x ∈ o := by
  simp [intersection, Finset.mem_filter, List.all_eq_true]

lemma mem_difference {s : Finset α} {others : List (Finset α)} {x : α} :
    x ∈ difference s others ↔ x ∈ s ∧ ∀ o ∈ others, x ∉ o := by
  simp [difference, Finset.mem_filter, List.any_eq_true]

lemma mem_symmetricDifference {s other : Finset α} {x : α} :
    x ∈ symmetricDifference s other ↔ (x ∈ s ∧ x ∉ other) ∨ (x ∈ other ∧ x ∉ s) := by
  simp [symmetricDifference, Finset.mem_union, Finset.mem_filter]

lemma setEqual_iff {s other : Finset α} :
    setEqual s other = true ↔ s.card = other.card ∧ ∀ x ∈ s, x ∈ other := by
  simp [setEqual, Bool.and_eq_true, beq_iff_eq]

lemma eq_of_card_eq_of_forall_mem {s t : Finset α} (hc : s.card = t.card)
    (hm : ∀ x ∈ s, x ∈ t) : s = t :=
  Finset.eq_of_subset_of_card_le (fun x hx => hm x hx) (le_of_eq hc.symm)

lemma intersection_single_eq_iff {a b : Finset α} :
    intersection a [b] = a ↔ ∀ x ∈ a, x ∈ b := by
  constructor
  · intro h x hx
    have hx2 : x ∈ intersection a [b] := by rw [h]; exact hx
    exact (mem_intersection.mp hx2).2 b (by simp)
  · intro h
    ext x
    simp only [mem_intersection, List.mem_singleton]
    constructor
    · exact fun hx => hx.1
    · intro hx
      exact ⟨hx, fun o ho => ho ▸ h x hx⟩

lemma intersection_single_card_iff {a b : Finset α} :
    (intersection a [b]).card = a.card ↔ ∀ x ∈ a, x ∈ b := by
  constructor
  · intro hcard
    have hsub : intersection a [b] ⊆ a := fun x hx => (mem_intersection.mp hx).1
    have heq : intersection a [b] = a :=
      Finset.eq_of_subset_of_card_le hsub (le_of_eq hcard.symm)
    exact intersection_single_eq_iff.mp heq
  · intro h
    rw [intersection_single_eq_iff.mpr h]

/-! ### Claim theorems for the sequential layer -/

/-- C3: for all sets `a` and `b`, `Equal` returns true iff the sizes match and
every item of `a` is contained in `b`; and that one-directional check holds
exactly when `a` and `b` have identical membership. -/
theorem equal_matches_membership (a b : Finset α) :
    (setEqual a b = true ↔ a.card = b.card ∧ ∀ x ∈ a, x ∈ b) ∧
    (setEqual a b = true ↔ a = b) := by
  refine ⟨setEqual_iff, ?_⟩
  rw [setEqual_iff]
  constructor
  · intro ⟨hc, hm⟩
    exact eq_of_card_eq_of_forall_mem hc hm
  · rintro rfl
    exact ⟨rfl, fun x hx => hx⟩

/-- C4: membership characterisation of the algebra — an item is in
`Intersection` iff it is in the receiver and in every other; in `Difference`
iff it is in the receiver and in no other; in `SymmetricDifference` iff it is
in exactly one of the two operands. -/
theorem algebra_membership (s other : Finset α) (others : List (Finset α)) (x : α) :
    (x ∈ intersection s others ↔ x ∈ s ∧ ∀ o ∈ others, x ∈ o) ∧
    (x ∈ difference s others ↔ x ∈ s ∧ ∀ o ∈ others, x ∉ o) ∧
    (x ∈ symmetricDifference s other ↔ (x ∈ s ∧ x ∉ other) ∨ (x ∈ other ∧ x ∉ s)) :=
  ⟨mem_intersection, mem_difference, mem_symmetricDifference⟩

/-- C7: algebraic identities — `Union` of a set alone (no operands, or itself
as the only operand) is its `Copy`; `Intersection` with itself is itself;
`Difference` with itself and `SymmetricDifference` with itself are empty. -/
theorem algebra_self_identities (A : Finset α) :
    union A [] = copy A ∧
    union A [A] = copy A ∧
    intersection A [A] = A ∧
    difference A [A] = ∅ ∧
    symmetricDifference A A = ∅ := by
  refine ⟨rfl, ?_, ?_, ?_, ?_⟩
  · ext x
    simp [union, update, copy_eq]
  · ext x
    simp [mem_intersection]
  · ext x
    simp [mem_difference]
  · ext x
    simp [mem_symmetricDifference]

/-- C8: the containment predicates — `IsSubset` is true iff the intersection
with the other has the receiver's size, equivalently iff every item of the
receiver is in the other; `IsSuperset` is exactly the flipped `IsSubset`; and
`IsDisjoint` is true iff the intersection has size zero. -/
theorem predicates_correct (a b : Finset α) :
    (isSubset a b = true ↔ (intersection a [b]).card = a.card) ∧
    (isSubset a b = true ↔ ∀ x ∈ a, x ∈ b) ∧
    isSuperset a b = isSubset b a ∧
    (isDisjoint a b = true ↔ (intersection a [b]).card = 0) := by
  refine ⟨?_, ?_, rfl, ?_⟩
  · simp [isSubset]
  · simp [isSubset, intersection_single_card_iff]
  · simp [isDisjoint]

/-! ### Claim theorems for the store's error behaviour and (de)serialisation -/

/-- C5: `Pop` fails with the empty-set kind exactly when the store is empty and
a failing `Pop` returns the store untouched; `Remove` fails with the
item-not-found kind exactly when the item is absent and a failing `Remove`
returns the store untouched; `Discard` never returns an error. -/
theorem error_conditions (s : Finset α) (pick x : α) (items : List α) :
    ((pop s pick).2.2 = some StoreError.emptySet ↔ s = ∅) ∧
    (s = ∅ → pop s pick = (s, none, some StoreError.emptySet)) ∧
    ((removeStore s x).2 = some StoreError.itemNotFound ↔ x ∉ s) ∧
    (x ∉ s → removeStore s x = (s, some StoreError.itemNotFound)) ∧
    (discardStore s items).2 = none := by
  refine ⟨?_, ?_, ?_, ?_, rfl⟩
  · rw [pop]
    split_ifs with h
    · simp [Finset.card_eq_zero.mp h]
    · have hne : s ≠ ∅ := by
        intro hs
        exact h (by simp [hs])
      simp [hne]
  · intro hs
    simp [pop, hs]
  · rw [removeStore]
    split_ifs with h <;> simp [h]
  · intro h
    simp [removeStore, h]

/-- C5 witness. -/
theorem error_conditions_witness :
    ((pop ({1} : Finset Int) 1).2.2 = some StoreError.emptySet ↔ ({1} : Finset Int) = ∅) ∧
    (({1} : Finset Int) = ∅ →
      pop ({1} : Finset Int) 1 = ({1}, none, some StoreError.emptySet)) ∧
    ((removeStore ({1} : Finset Int) 2).2 = some StoreError.itemNotFound ↔
      (2 : Int) ∉ ({1} : Finset Int)) ∧
    ((2 : Int) ∉ ({1} : Finset Int) →
      removeStore ({1} : Finset Int) 2 = ({1}, some StoreError.itemNotFound)) ∧
    (discardStore ({1} : Finset Int) [1, 2]).2 = none :=
  error_conditions ({1} : Finset Int) 1 2 [1, 2]

/-- C6: building a set from any finite item sequence, marshalling it and
unmarshalling the emitted sequence into a fresh empty set yields a set equal
to the original, and the construction collapses duplicates, so the round trip
is insensitive to repetitions. -/
theorem json_roundtrip (l e : List α) (he : marshalsTo (fromSlice l) e) :
    (unmarshalJSON (∅ : Finset α) (Except.ok e)).1 = fromSlice l ∧
    setEqual (unmarshalJSON (∅ : Finset α) (Except.ok e)).1 (fromSlice l) = true ∧
    fromSlice (l ++ l) = fromSlice l := by
  obtain ⟨hnd, hto⟩ := he
  have h1 : (unmarshalJSON (∅ : Finset α) (Except.ok e)).1 = fromSlice l := by
    simp [unmarshalJSON, add_eq, hto]
  refine ⟨h1, ?_, ?_⟩
  · rw [h1, setEqual_iff]
    exact ⟨rfl, fun _ hx => hx⟩
  · simp [fromSlice_eq]

/-- C6 witness. -/
theorem json_roundtrip_witness :
    marshalsTo (fromSlice ([1, 2, 1] : List Int)) ([2, 1] : List Int) ∧
    ((unmarshalJSON (∅ : Finset Int) (Except.ok [2, 1])).1 = fromSlice [1, 2, 1] ∧
      setEqual (unmarshalJSON (∅ : Finset Int) (Except.ok [2, 1])).1
        (fromSlice [1, 2, 1]) = true ∧
      fromSlice (([1, 2, 1] : List Int) ++ [1, 2, 1]) = fromSlice [1, 2, 1]) :=
  ⟨⟨by decide, by decide⟩,
    json_roundtrip ([1, 2, 1] : List Int) [2, 1] ⟨by decide, by decide⟩⟩

/-- C10: on a decode failure `UnmarshalJSON` returns the decoder's error and
the existing membership completely unchanged; on success the decoded items are
merged into the existing membership and no error is returned. -/
theorem unmarshal_error_preserves (s : Finset α) (e : DecodeError) (items : List α) :
    unmarshalJSON s (Except.error e) = (s, some e) ∧
    (unmarshalJSON s (Except.ok items)).1 = s ∪ items.toFinset ∧
    (unmarshalJSON s (Except.ok items)).2 = none := by
  refine ⟨rfl, ?_, rfl⟩
  simp [unmarshalJSON, add_eq]

/-! ### Heap lemmas and the frame property of the algebra -/

lemma hget_hset_ne (h : Heap α) (i j : Nat) (v : Finset α) (hij : j ≠ i) :
    hget (hset h i v) j = hget h j := by
  induction h generalizing i j with
  | nil => rfl
  | cons w t ih =>
    cases i with
    | zero =>
      cases j with
      | zero => exact absurd rfl hij
      | succ j0 => rfl
    | succ i0 =>
      cases j with
      | zero => rfl
      | succ j0 => exact ih i0 j0 (fun hh => hij (by rw [hh]))

lemma hget_append_lt (h : Heap α) (v : Finset α) (i : Nat) (hi : i < h.length) :
    hget (h ++ [v]) i = hget h i := by
  induction h generalizing i with
  | nil => simp at hi
  | cons w t ih =>
    cases i with
    | zero => rfl
    | succ i0 => exact ih i0 (by simpa using hi)

lemma updateH_frame (s : Nat) (others : List Nat) (h : Heap α) (i : Nat) (his : i ≠ s) :
    hget (updateH h s others) i = hget h i := by
  induction others generalizing h with
  | nil => rfl
  | cons o os ih =>
    calc hget (updateH h s (o :: os)) i
        = hget (updateH (hset h s (hget h s ∪ hget h o)) s os) i := rfl
      _ = hget (hset h s (hget h s ∪ hget h o)) i := ih _
      _ = hget h i := hget_hset_ne _ _ _ _ his

/-- C9: each algebra operation of the sequential layer allocates its result at
a fresh address and leaves every pre-existing cell — the receiver's and every
operand's — exactly as it was. -/
theorem algebra_frame (h : Heap α) (s o : Nat) (others : List Nat) (i : Nat)
    (hi : i < h.length) :
    hget (unionH h s others).1 i = hget h i ∧ (unionH h s others).2 = h.length ∧
    hget (intersectionH h s others).1 i = hget h i ∧
    (intersectionH h s others).2 = h.length ∧
    hget (differenceH h s others).1 i = hget h i ∧
    (differenceH h s others).2 = h.length ∧
    hget (symmetricDifferenceH h s o).1 i = hget h i ∧
    (symmetricDifferenceH h s o).2 = h.length := by
  have hne : i ≠ h.length := Nat.ne_of_lt hi
  refine ⟨?_, rfl, ?_, rfl, ?_, rfl, ?_, rfl⟩
  · calc hget (unionH h s others).1 i
        = hget (h ++ [copy (hget h s)]) i := updateH_frame _ _ _ _ hne
      _ = hget h i := hget_append_lt _ _ _ hi
  · calc hget (intersectionH h s others).1 i
        = hget (h ++ [(∅ : Finset α)]) i := hget_hset_ne _ _ _ _ hne
      _ = hget h i := hget_append_lt _ _ _ hi
  · calc hget (differenceH h s others).1 i
        = hget (h ++ [(∅ : Finset α)]) i := hget_hset_ne _ _ _ _ hne
      _ = hget h i := hget_append_lt _ _ _ hi
  · calc hget (symmetricDifferenceH h s o).1 i
        = hget (h ++ [(∅ : Finset α)]) i := hget_hset_ne _ _ _ _ hne
      _ = hget h i := hget_append_lt _ _ _ hi

/-- C9 witness. -/
theorem algebra_frame_witness :
    (0 : Nat) < ([{1}, {2}] : Heap Int).length ∧
    (hget (unionH ([{1}, {2}] : Heap Int) 0 [1]).1 0 = hget ([{1}, {2}] : Heap Int) 0 ∧
      (unionH ([{1}, {2}] : Heap Int) 0 [1]).2 = ([{1}, {2}] : Heap Int).length ∧
      hget (intersectionH ([{1}, {2}] : Heap Int) 0 [1]).1 0 =
        hget ([{1}, {2}] : Heap Int) 0 ∧
      (intersectionH ([{1}, {2}] : Heap Int) 0 [1]).2 = ([{1}, {2}] : Heap Int).length ∧
      hget (differenceH ([{1}, {2}] : Heap Int) 0 [1]).1 0 =
        hget ([{1}, {2}] : Heap Int) 0 ∧
      (differenceH ([{1}, {2}] : Heap Int) 0 [1]).2 = ([{1}, {2}] : Heap Int).length ∧
      hget (symmetricDifferenceH ([{1}, {2}] : Heap Int) 0 1).1 0 =
        hget ([{1}, {2}] : Heap Int) 0 ∧
      (symmetricDifferenceH ([{1}, {2}] : Heap Int) 0 1).2 =
        ([{1}, {2}] : Heap Int).length) :=
  ⟨by decide, algebra_frame ([{1}, {2}] : Heap Int) 0 1 [1] 0 (by decide)⟩

/-! ### Lock-trace lemmas and the locking-protocol claims -/

lemma locksBounded_collectCopy (n : Nat) (i : Nat) (rest : List Ev) :
    locksBounded 1 0 (collectCopy i n ++ rest) = locksBounded 1 0 rest := by
  induction n generalizing i with
  | zero => rfl
  | succ k ih =>
    simp only [collectCopy, List.cons_append, locksBounded]
    simpa using ih (i + 1)

lemma locksBounded_collectRef (n : Nat) (i : Nat) (rest : List Ev) :
    locksBounded 1 0 (collectRef i n ++ rest) = locksBounded 1 0 rest := by
  induction n generalizing i with
  | zero => rfl
  | succ k ih =>
    simp only [collectRef, List.cons_append, locksBounded]
    simpa using ih (i + 1)

lemma locksBounded_singleLockCalls (calls : List Nat) (rest : List Ev) :
    locksBounded 1 0 (singleLockCalls calls ++ rest) = locksBounded 1 0 rest := by
  induction calls with
  | nil => rfl
  | cons c cs ih =>
    simp only [singleLockCalls, List.cons_append, locksBounded]
    simpa using ih

lemma preCompute_lockEach (n : Nat) (i : Nat) (rest : List Ev) :
    preCompute (lockEach i n ++ Ev.compute :: rest) = lockEach i n := by
  induction n generalizing i with
  | zero => rfl
  | succ k ih =>
    simp only [lockEach, List.cons_append, List.append_eq, preCompute]
    rw [ih]

lemma countHeldFrom_lockEach (n : Nat) (i c : Nat) :
    countHeldFrom c (lockEach i n) = c + n := by
  induction n generalizing i c with
  | zero => rfl
  | succ k ih =>
    simp only [lockEach, countHeldFrom]
    rw [ih]
    omega

lemma lockEach_noUnlock (n : Nat) (i : Nat) :
    (lockEach i n).all (fun e => !isUnlock e) = true := by
  induction n generalizing i with
  | zero => rfl
  | succ k ih =>
    simp only [lockEach, List.all_cons, isUnlock, Bool.not_false, Bool.true_and]
    exact ih (i + 1)

lemma collectCopy_noRef (n : Nat) (i : Nat) :
    (collectCopy i n).all (fun e => !isRefOf e) = true := by
  induction n generalizing i with
  | zero => rfl
  | succ k ih =>
    simp only [collectCopy, List.all_cons, isRefOf, Bool.not_false, Bool.true_and]
    exact ih (i + 1)

lemma copyOf_mem_collectCopy (n : Nat) (i k : Nat) (hk : k < n) :
    Ev.copyOf (i + k) ∈ collectCopy i n := by
  induction n generalizing i k with
  | zero => exact absurd hk (Nat.not_lt_zero k)
  | succ m ih =>
    cases k with
    | zero => simp [collectCopy]
    | succ k0 =>
      have hmem := ih (i + 1) k0 (Nat.lt_of_succ_lt_succ hk)
      have harith : i + 1 + k0 = i + (k0 + 1) := by omega
      rw [harith] at hmem
      simp [collectCopy, hmem]

lemma refOf_mem_collectRef (n : Nat) (i k : Nat) (hk : k < n) :
    Ev.refOf (i + k) ∈ collectRef i n := by
  induction n generalizing i k with
  | zero => exact absurd hk (Nat.not_lt_zero k)
  | succ m ih =>
    cases k with
    | zero => simp [collectRef]
    | succ k0 =>
      have hmem := ih (i + 1) k0 (Nat.lt_of_succ_lt_succ hk)
      have harith : i + 1 + k0 = i + (k0 + 1) := by omega
      rw [harith] at hmem
      simp [collectRef, hmem]

lemma copyOf_not_mem_collectRef (n : Nat) (i j : Nat) :
    Ev.copyOf j ∉ collectRef i n := by
  induction n generalizing i with
  | zero => simp [collectRef]
  | succ m ih =>
    simp only [collectRef, List.mem_cons]
    intro hmem
    rcases hmem with h1 | h1 | h1 | h1 <;> first
      | exact Ev.noConfusion h1
      | exact ih (i + 1) h1

/-- C1: during `Union`, `Difference`, `SymmetricDifference`, `Equal`,
`Intersection`, `IsDisjoint`, `IsSubset` and `IsSuperset` of the concurrent
wrapper, the calling thread never holds more than one instance's lock at a
time; `Update` alone locks the receiver and then every operand in turn,
releasing none of them before the merge completes, so it holds `n + 1` locks
simultaneously. -/
theorem lock_discipline (n r : Nat) (calls : List Nat) :
    locksBounded 1 0 (safeUnionTrace n) = true ∧
    locksBounded 1 0 (safeDifferenceTrace n) = true ∧
    locksBounded 1 0 safeSymmetricDifferenceTrace = true ∧
    locksBounded 1 0 safeEqualTrace = true ∧
    locksBounded 1 0 (safeIntersectionTrace calls) = true ∧
    locksBounded 1 0 (safeIsDisjointTrace calls r) = true ∧
    locksBounded 1 0 (safeIsSubsetTrace calls r) = true ∧
    locksBounded 1 0 (safeIsSupersetTrace calls r) = true ∧
    preCompute (safeUpdateTrace n) = Ev.lock 0 :: lockEach 1 n ∧
    countHeld (preCompute (safeUpdateTrace n)) = n + 1 ∧
    (preCompute (safeUpdateTrace n)).all (fun e => !isUnlock e) = true := by
  have hpre : preCompute (safeUpdateTrace n) = Ev.lock 0 :: lockEach 1 n := by
    simp only [safeUpdateTrace, preCompute]
    rw [preCompute_lockEach]
  refine ⟨?_, ?_, rfl, rfl, ?_, ?_, ?_, ?_, hpre, ?_, ?_⟩
  · rw [safeUnionTrace, locksBounded_collectCopy]
    rfl
  · rw [safeDifferenceTrace, locksBounded_collectRef]
    rfl
  · show locksBounded 1 0 (singleLockCalls calls) = true
    have := locksBounded_singleLockCalls calls []
    simpa using this
  · show locksBounded 1 0 (singleLockCalls calls ++ [Ev.lock r, Ev.unlock r]) = true
    rw [locksBounded_singleLockCalls]
    rfl
  · show locksBounded 1 0
      (singleLockCalls calls ++ [Ev.lock r, Ev.unlock r, Ev.lock 0, Ev.unlock 0]) = true
    rw [locksBounded_singleLockCalls]
    rfl
  · show locksBounded 1 0
      (singleLockCalls calls ++ [Ev.lock r, Ev.unlock r, Ev.lock 0, Ev.unlock 0]) = true
    rw [locksBounded_singleLockCalls]
    rfl
  · rw [hpre]
    show countHeldFrom 1 (lockEach 1 n) = n + 1
    rw [countHeldFrom_lockEach]
    omega
  · rw [hpre]
    simp only [List.all_cons, isUnlock, Bool.not_false, Bool.true_and]
    exact lockEach_noUnlock n 1

/-- C2 counterexample: `SafeSet.Difference` with one operand locks the operand
and takes only a live reference to its inner `Set` (`GetSet()` with no
`Copy()`), so its combine phase does not read a detached snapshot; likewise
`SafeSet.SymmetricDifference`. -/
theorem snapshot_claim_false :
    usesOnlySnapshots (safeDifferenceTrace 1) = false ∧
    Ev.refOf 1 ∈ safeDifferenceTrace 1 ∧
    Ev.copyOf 1 ∉ safeDifferenceTrace 1 ∧
    usesOnlySnapshots safeSymmetricDifferenceTrace = false := by
  decide

/-- C2 amended: `Union` handles every operand by acquiring its lock, taking a
full independent copy of its membership and releasing immediately, so its
combine under the receiver's lock reads only detached snapshots; `Difference`
and `SymmetricDifference` instead lock each operand only long enough to take a
reference to its live inner `Set` (no copy), so their combine under the
receiver's lock reads the operands' live storage. -/
theorem snapshot_patterns (n k : Nat) (hk : k < n) :
    usesOnlySnapshots (safeUnionTrace n) = true ∧
    Ev.copyOf (k + 1) ∈ safeUnionTrace n ∧
    Ev.refOf (k + 1) ∈ safeDifferenceTrace n ∧
    Ev.copyOf (k + 1) ∉ safeDifferenceTrace n ∧
    Ev.refOf 1 ∈ safeSymmetricDifferenceTrace ∧
    Ev.copyOf 1 ∉ safeSymmetricDifferenceTrace := by
  refine ⟨?_, ?_, ?_, ?_, by decide, by decide⟩
  · simp only [usesOnlySnapshots, safeUnionTrace, List.all_append]
    rw [collectCopy_noRef]
    rfl
  · have := copyOf_mem_collectCopy n 1 k hk
    rw [Nat.add_comm 1 k] at this
    simp [safeUnionTrace, this]
  · have := refOf_mem_collectRef n 1 k hk
    rw [Nat.add_comm 1 k] at this
    simp [safeDifferenceTrace, this]
  · simp only [safeDifferenceTrace, List.mem_append]
    intro hmem
    rcases hmem with h1 | h1
    · exact copyOf_not_mem_collectRef n 1 (k + 1) h1
    · simp at h1

/-- C2 amended witness. -/
theorem snapshot_patterns_witness :
    (0 : Nat) < 1 ∧
    (usesOnlySnapshots (safeUnionTrace 1) = true ∧
      Ev.copyOf 1 ∈ safeUnionTrace 1 ∧
      Ev.refOf 1 ∈ safeDifferenceTrace 1 ∧
      Ev.copyOf 1 ∉ safeDifferenceTrace 1 ∧
      Ev.refOf 1 ∈ safeSymmetricDifferenceTrace ∧
      Ev.copyOf 1 ∉ safeSymmetricDifferenceTrace) :=
  ⟨by decide, snapshot_patterns 1 0 (by decide)⟩

end Goset
